import Mathlib

/-!
Verification of the subdiff core: a shallow embedding of the hunk-assembly
state machine (src/hunked.rs), the intra-line renderers (src/wdiff.rs) and
the selector projection (src/main.rs), together with proofs about the
properties claimed for them.

Bytes are modelled as natural numbers (the code works on u8 values; no
arithmetic is performed on them, only comparisons, so Nat is adequate).
Code that can panic (assertions, unwraps, slice indexing, integer
underflow) is modelled in the Except String monad, the error carrying the
panic message.
-/

namespace Subdiff

/-- A byte of input.  The Rust code works on u8; only comparisons are ever
performed on byte values, so we model them as Nat. -/
abbrev Byte := Nat

/-- Byte string of a Lean string literal (ASCII data used by the tests). -/
def strBytes (s : String) : List Byte :=
  s.data.map Char.toNat

/-- lcs_diff::DiffElement: payload plus the two (optional) file offsets. -/
structure DiffElement (α : Type) where
  old_index : Option Nat
  new_index : Option Nat
  data : α
deriving DecidableEq, Repr

/-- lcs_diff::DiffResult: a tagged edit record. -/
inductive DiffResult (α : Type) where
  | Added (el : DiffElement α)
  | Removed (el : DiffElement α)
  | Common (el : DiffElement α)
deriving DecidableEq, Repr

/-- hunked.rs diff_offsets. -/
def diff_offsets {α : Type} : DiffResult α → Option Nat × Option Nat
  | .Added el => (el.old_index, el.new_index)
  | .Removed el => (el.old_index, el.new_index)
  | .Common el => (el.old_index, el.new_index)

/-- wdiff.rs res_data: the payload of a record. -/
def res_data {α : Type} : DiffResult α → α
  | .Added el => el.data
  | .Removed el => el.data
  | .Common el => el.data

/-- wdiff.rs is_common. -/
def is_common {α : Type} : DiffResult α → Bool
  | .Common _ => true
  | _ => false

/-- main.rs exist_differences: true iff some record is not Common. -/
def exist_differences {α : Type} (results : List (DiffResult α)) : Bool :=
  results.any (fun r => !is_common r)

/-- Both file offsets are present on the record (true after backfill). -/
def recBoth {α : Type} (d : DiffResult α) : Bool :=
  (diff_offsets d).1.isSome && (diff_offsets d).2.isSome

/-! ### Character classes (wdiff.rs) -/

/-- Rust u8::is_ascii_alphabetic. -/
def isAsciiAlpha (b : Byte) : Bool :=
  (65 ≤ b && b ≤ 90) || (97 ≤ b && b ≤ 122)

/-- Rust u8::is_ascii_digit. -/
def isAsciiDigit (b : Byte) : Bool :=
  48 ≤ b && b ≤ 57

/-- Rust u8::is_ascii_whitespace: space, tab, newline, form feed, carriage
return (vertical tab is not included). -/
def isAsciiWhite (b : Byte) : Bool :=
  b == 32 || b == 9 || b == 10 || b == 12 || b == 13

/-- wdiff.rs CharacterClass (the PhantomData type parameter is erased; it
carries no information). -/
inductive CharacterClass where
  | White
  | Digit
  | Alpha
  | Word
  | Any
deriving DecidableEq, Repr

/-- HasCharacterClass for u8 (wdiff.rs): the class of a byte. -/
def byteCC (b : Byte) : CharacterClass :=
  if isAsciiAlpha b then .Alpha
  else if isAsciiDigit b then .Digit
  else if isAsciiWhite b then .White
  else .Any

/-- CharacterClass::merge, translated arm by arm: the match is on `other`
first, then on `self`. -/
def CharacterClass.merge (self other : CharacterClass) : CharacterClass :=
  match other with
  | .White =>
    match self with
    | .White => .White
    | _ => .Any
  | .Digit =>
    match self with
    | .Digit => .Digit
    | .Alpha => .Word
    | .Word => .Word
    | _ => .Any
  | .Alpha =>
    match self with
    | .Alpha => .Alpha
    | .Digit => .Word
    | .Word => .Word
    | _ => .Any
  | .Word =>
    match self with
    | .Alpha => .Word
    | .Digit => .Word
    | .Word => .Word
    | _ => .Any
  | .Any => .Any

/-- CharacterClass::accepts: a class accepts a byte iff merging with the
byte's class leaves the class unchanged. -/
def CharacterClass.accepts (cc : CharacterClass) (b : Byte) : Bool :=
  cc.merge (byteCC b) == cc

/-- CharacterClass::write: the symbol emitted for a class
(backslash-s, backslash-d, backslash-a, backslash-w, or a dot). -/
def ccBytes : CharacterClass → List Byte
  | .White => [92, 115]
  | .Digit => [92, 100]
  | .Alpha => [92, 97]
  | .Word => [92, 119]
  | .Any => [46]

/-! ### Hunks (hunked.rs) -/

/-- hunked.rs Hunk. -/
structure Hunk (α : Type) where
  old_start : Nat
  old_len : Nat
  new_start : Nat
  new_len : Nat
  items : List (DiffResult α)
deriving DecidableEq, Repr

/-- Hunk::initial: used when there is a change at the beginning of the file. -/
def Hunk.initial {α : Type} : Hunk α :=
  ⟨0, 0, 0, 0, []⟩

/-- Hunk::from_diff: panics unless both offsets are present on the record. -/
def Hunk.fromDiff {α : Type} (d : DiffResult α) : Except String (Hunk α) :=
  match diff_offsets d with
  | (some o, some n) => .ok ⟨o, 0, n, 0, []⟩
  | _ => .error "Can currently ony start a hunk from a common element"

/-- Hunk::append: bump the side lengths per record kind, lower the start
offsets if the record carries an earlier one, push the record. -/
def Hunk.append {α : Type} (h : Hunk α) (d : DiffResult α) : Hunk α :=
  let old_len :=
    match d with
    | .Common _ => h.old_len + 1
    | .Removed _ => h.old_len + 1
    | .Added _ => h.old_len
  let new_len :=
    match d with
    | .Common _ => h.new_len + 1
    | .Removed _ => h.new_len
    | .Added _ => h.new_len + 1
  let old_start :=
    match (diff_offsets d).1 with
    | some o => if o < h.old_start then o else h.old_start
    | none => h.old_start
  let new_start :=
    match (diff_offsets d).2 with
    | some n => if n < h.new_start then n else h.new_start
    | none => h.new_start
  ⟨old_start, old_len, new_start, new_len, h.items ++ [d]⟩

/-- Does the record contribute to the old side (Common or Removed)? -/
def isOldItem {α : Type} : DiffResult α → Bool
  | .Common _ => true
  | .Removed _ => true
  | .Added _ => false

/-- Does the record contribute to the new side (Common or Added)? -/
def isNewItem {α : Type} : DiffResult α → Bool
  | .Common _ => true
  | .Removed _ => false
  | .Added _ => true

/-- The length-bookkeeping invariant of a hunk (claim C2). -/
def hunkWf {α : Type} (h : Hunk α) : Prop :=
  h.old_len = h.items.countP isOldItem ∧ h.new_len = h.items.countP isNewItem

/-- The invariant lifted to an optional in-progress hunk. -/
def optWf {α : Type} : Option (Hunk α) → Prop
  | none => True
  | some h => hunkWf h

/-! ### Hunk header rendering (hunked.rs write_off_len / write_hunk_header) -/

/-- hunked.rs write_off_len: if the length is zero the line offset printed
is that of the previous line and an explicit ",0" follows; otherwise the
one-based offset is printed, followed by the length only when it exceeds 1. -/
def write_off_len (off len : Nat) : String :=
  if len = 0 then
    toString off ++ ",0"
  else
    toString (off + 1) ++ (if len > 1 then "," ++ toString len else "")

/-- hunked.rs write_hunk_header. -/
def write_hunk_header {α : Type} (hunk : Hunk α) : String :=
  "@@ -" ++ write_off_len hunk.old_start hunk.old_len ++ " +" ++
    write_off_len hunk.new_start hunk.new_len ++ " @@\n"

/-! ### File offsets and index backfill (hunked.rs) -/

/-- hunked.rs FileOffsets: running zero-based counts of consumed records. -/
structure FileOffsets where
  old_off : Nat
  new_off : Nat
deriving DecidableEq, Repr

/-- FileOffsets::observe: advance the offsets per record kind. -/
def FileOffsets.observe {α : Type} (off : FileOffsets) : DiffResult α → FileOffsets
  | .Common _ => ⟨off.old_off + 1, off.new_off + 1⟩
  | .Added _ => ⟨off.old_off, off.new_off + 1⟩
  | .Removed _ => ⟨off.old_off + 1, off.new_off⟩

/-- hunked.rs update_indices: assert the advancing side's index equals the
running offset and backfill the opposite side with the current offset. -/
def update_indices {α : Type} (off : FileOffsets) :
    DiffResult α → Except String (DiffResult α)
  | .Added el =>
    if el.new_index = some off.new_off then
      .ok (.Added { el with old_index := some off.old_off })
    else
      .error "assertion failed: el.new_index == Some(offsets.new_off)"
  | .Removed el =>
    if el.old_index = some off.old_off then
      .ok (.Removed { el with new_index := some off.new_off })
    else
      .error "assertion failed: el.old_index == Some(offsets.old_off)"
  | .Common el =>
    if el.old_index = some off.old_off then
      if el.new_index = some off.new_off then
        .ok (.Common el)
      else
        .error "assertion failed: el.new_index == Some(offsets.new_off)"
    else
      .error "assertion failed: el.old_index == Some(offsets.old_off)"

/-! ### The hunk state machine (hunked.rs) -/

/-- hunked.rs append (free function): get_or_insert the hunk from the
record, then append the record to it. -/
def appendH {α : Type} (hunk : Option (Hunk α)) (d : DiffResult α) :
    Except String (Hunk α) :=
  match hunk with
  | some h => .ok (h.append d)
  | none =>
    match Hunk.fromDiff d with
    | .ok h => .ok (h.append d)
    | .error e => .error e

/-- hunked.rs consume: drain an iterator of records into the hunk. -/
def consumeH {α : Type} (hunk : Option (Hunk α)) :
    List (DiffResult α) → Except String (Option (Hunk α))
  | [] => .ok hunk
  | d :: ds =>
    match appendH hunk d with
    | .ok h => consumeH (some h) ds
    | .error e => .error e

/-- hunked.rs State: the four states of the hunk state machine.  The Rust
VecDeque of commons is a list whose front is its head. -/
inductive State (α : Type) where
  | CollectingAdds (hunk : Option (Hunk α)) (adds : List (DiffResult α))
  | CollectingCommonsTail (hunk : Option (Hunk α)) (seen : Nat)
      (commons : List (DiffResult α))
  | CollectingCommonsCorked (hunk : Option (Hunk α))
      (commons : List (DiffResult α))
  | SequentialRemoves (hunk : Option (Hunk α)) (adds : List (DiffResult α))
deriving DecidableEq, Repr

/-- The relevant part of conf.rs Conf for the state machine and renderers. -/
inductive CharacterClassExpansion where
  | Narrow
  | Wide
deriving DecidableEq, Repr

/-- conf.rs ContextLineFormat. -/
inductive ContextLineFormat where
  | CC (e : CharacterClassExpansion)
  | Wdiff
  | Old
  | New
deriving DecidableEq, Repr

/-- conf.rs Conf. -/
structure Conf where
  debug : Bool
  context : Nat
  mark_changed_context : Bool
  context_format : ContextLineFormat
  display_selected : Bool
deriving DecidableEq, Repr

/-- conf.rs Conf::default. -/
def Conf.default : Conf :=
  ⟨false, 3, false, .Wdiff, false⟩

/-- hunked.rs setup_initial_state (context > 0). -/
def setup_initial_state {α : Type} (d : DiffResult α) : State α :=
  match d with
  | .Common _ => .CollectingCommonsTail none 1 [d]
  | .Added _ => .CollectingAdds (some Hunk.initial) [d]
  | .Removed _ => .SequentialRemoves (some (Hunk.initial.append d)) []

/-- hunked.rs fsm (context > 0): one transition.  The result pairs the
hunks passed to dump_hunk during the transition (zero or one) with the
next state; dumping is modelled by collecting, as dump_hunk is a callback. -/
def fsm {α : Type} (conf : Conf) (state : State α) (d : DiffResult α) :
    Except String (List (Hunk α) × State α) :=
  match state with
  | .CollectingAdds hunk adds =>
    match d with
    | .Added _ => .ok ([], .CollectingAdds hunk (adds ++ [d]))
    | .Removed _ =>
      match appendH hunk d with
      | .ok h => .ok ([], .SequentialRemoves (some h) adds)
      | .error e => .error e
    | .Common _ =>
      match consumeH hunk adds with
      | .ok hunk2 => .ok ([], .CollectingCommonsCorked hunk2 [d])
      | .error e => .error e
  | .CollectingCommonsTail hunk seen commons =>
    match d with
    | .Added _ =>
      let em := if seen > conf.context then hunk.toList else []
      let hunk1 := if seen > conf.context then none else hunk
      match consumeH hunk1 commons with
      | .ok hunk2 => .ok (em, .CollectingAdds hunk2 [d])
      | .error e => .error e
    | .Removed _ =>
      let em := if seen > conf.context then hunk.toList else []
      let hunk1 := if seen > conf.context then none else hunk
      match consumeH hunk1 commons with
      | .ok hunk2 =>
        match appendH hunk2 d with
        | .ok h => .ok (em, .SequentialRemoves (some h) [])
        | .error e => .error e
      | .error e => .error e
    | .Common _ =>
      let em := if seen > conf.context then hunk.toList else []
      let hunk1 := if seen > conf.context then none else hunk
      let commons2 := commons ++ [d]
      let commons3 := if commons2.length > conf.context then commons2.tail else commons2
      .ok (em, .CollectingCommonsTail hunk1 (seen + 1) commons3)
  | .CollectingCommonsCorked hunk commons =>
    match d with
    | .Added _ =>
      match consumeH hunk commons with
      | .ok hunk2 => .ok ([], .CollectingAdds hunk2 [d])
      | .error e => .error e
    | .Removed _ =>
      match consumeH hunk commons with
      | .ok hunk2 =>
        match appendH hunk2 d with
        | .ok h => .ok ([], .SequentialRemoves (some h) [])
        | .error e => .error e
      | .error e => .error e
    | .Common _ =>
      if commons.length = conf.context then
        match consumeH hunk commons with
        | .ok hunk2 => .ok ([], .CollectingCommonsTail hunk2 1 [d])
        | .error e => .error e
      else
        .ok ([], .CollectingCommonsCorked hunk (commons ++ [d]))
  | .SequentialRemoves hunk adds =>
    match d with
    | .Added _ =>
      match consumeH hunk adds with
      | .ok hunk2 => .ok ([], .CollectingAdds hunk2 [d])
      | .error e => .error e
    | .Removed _ =>
      match appendH hunk d with
      | .ok h => .ok ([], .SequentialRemoves (some h) adds)
      | .error e => .error e
    | .Common _ =>
      match consumeH hunk adds with
      | .ok hunk2 => .ok ([], .CollectingCommonsCorked hunk2 [d])
      | .error e => .error e

/-- hunked.rs setup_initial_state_nocontext (context = 0). -/
def setup_initial_state_nocontext {α : Type} (d : DiffResult α) :
    Except String (State α) :=
  match d with
  | .Common _ => .ok (.SequentialRemoves none [])
  | .Added _ =>
    match Hunk.fromDiff d with
    | .ok h => .ok (.CollectingAdds (some h) [d])
    | .error e => .error e
  | .Removed _ =>
    match Hunk.fromDiff d with
    | .ok h => .ok (.SequentialRemoves (some (h.append d)) [])
    | .error e => .error e

/-- hunked.rs fsm_nocontext (context = 0): commons never enter a hunk; the
CollectingCommons states are unreachable and panic. -/
def fsm_nocontext {α : Type} (_conf : Conf) (state : State α) (d : DiffResult α) :
    Except String (List (Hunk α) × State α) :=
  match state with
  | .CollectingAdds hunk adds =>
    match d with
    | .Added _ => .ok ([], .CollectingAdds hunk (adds ++ [d]))
    | .Removed _ =>
      match appendH hunk d with
      | .ok h => .ok ([], .SequentialRemoves (some h) adds)
      | .error e => .error e
    | .Common _ =>
      match consumeH hunk adds with
      | .ok hunk2 => .ok (hunk2.toList, .SequentialRemoves none [])
      | .error e => .error e
  | .SequentialRemoves hunk adds =>
    match d with
    | .Added _ =>
      match consumeH hunk adds with
      | .ok hunk2 => .ok ([], .CollectingAdds hunk2 [d])
      | .error e => .error e
    | .Removed _ =>
      match appendH hunk d with
      | .ok h => .ok ([], .SequentialRemoves (some h) adds)
      | .error e => .error e
    | .Common _ =>
      match consumeH hunk adds with
      | .ok hunk2 => .ok (hunk2.toList, .SequentialRemoves none [])
      | .error e => .error e
  | .CollectingCommonsCorked _ _ => .error "Got CollectingCommons* in no-context"
  | .CollectingCommonsTail _ _ _ => .error "Got CollectingCommons* in no-context"

/-- hunked.rs handle_final_state: flush pending adds or corked commons into
the current hunk; commons collected in the tail state are dropped. -/
def handle_final_state {α : Type} (state : State α) :
    Except String (Option (Hunk α)) :=
  match state with
  | .CollectingAdds hunk adds => consumeH hunk adds
  | .CollectingCommonsTail hunk _ _ => .ok hunk
  | .CollectingCommonsCorked hunk commons => consumeH hunk commons
  | .SequentialRemoves hunk adds => consumeH hunk adds

/-- The per-record loop of display_diff_hunked: backfill the indices,
advance the offsets, feed the record to the configured state machine,
collecting all hunks that were dumped. -/
def runFsm {α : Type} (conf : Conf) :
    List (DiffResult α) → FileOffsets → State α →
      Except String (List (Hunk α) × State α)
  | [], _, st => .ok ([], st)
  | d :: rest, off, st =>
    match update_indices off d with
    | .ok d2 =>
      let off2 := off.observe d2
      match (if conf.context > 0 then fsm conf st d2 else fsm_nocontext conf st d2) with
      | .ok (em, st2) =>
        match runFsm conf rest off2 st2 with
        | .ok (emRest, stF) => .ok (em ++ emRest, stF)
        | .error e => .error e
      | .error e => .error e
    | .error e => .error e

/-- hunked.rs display_diff_hunked, with the flush callback modelled as
collecting the flushed hunks in order (the hunks written during the run
followed by the final hunk, when present).  An empty diff panics. -/
def display_diff_hunked {α : Type} (conf : Conf) (diff : List (DiffResult α)) :
    Except String (List (Hunk α)) :=
  match diff with
  | [] => .error "No differences at all, shouldn't have been called"
  | first :: rest =>
    match update_indices ⟨0, 0⟩ first with
    | .ok first2 =>
      let off := FileOffsets.observe ⟨0, 0⟩ first2
      match (if conf.context > 0 then
               .ok (setup_initial_state first2)
             else
               setup_initial_state_nocontext first2 : Except String (State α)) with
      | .ok st =>
        match runFsm conf rest off st with
        | .ok (em, stF) =>
          match handle_final_state stF with
          | .ok finalHunk => .ok (em ++ finalHunk.toList)
          | .error e => .error e
        | .error e => .error e
      | .error e => .error e
    | .error e => .error e

/-! ### Index conventions -/

/-- The canonical indexing produced by lcs_diff: each record's advancing
sides carry exactly the running zero-based offsets. -/
def wellFormed {α : Type} (off : FileOffsets) : List (DiffResult α) → Bool
  | [] => true
  | .Added el :: rest =>
    el.new_index == some off.new_off && wellFormed ⟨off.old_off, off.new_off + 1⟩ rest
  | .Removed el :: rest =>
    el.old_index == some off.old_off && wellFormed ⟨off.old_off + 1, off.new_off⟩ rest
  | .Common el :: rest =>
    el.old_index == some off.old_off && el.new_index == some off.new_off &&
      wellFormed ⟨off.old_off + 1, off.new_off + 1⟩ rest

/-- The old-side index sequence of records that advance the old file. -/
def oldIdxSeq {α : Type} (l : List (DiffResult α)) : List (Option Nat) :=
  l.filterMap fun d =>
    match d with
    | .Removed el => some el.old_index
    | .Common el => some el.old_index
    | .Added _ => none

/-- The new-side index sequence of records that advance the new file. -/
def newIdxSeq {α : Type} (l : List (DiffResult α)) : List (Option Nat) :=
  l.filterMap fun d =>
    match d with
    | .Added el => some el.new_index
    | .Common el => some el.new_index
    | .Removed _ => none

/-- Adjacent pair of a strictly increasing chain: both present, ordered. -/
def strictIncrPair : Option Nat → Option Nat → Bool
  | some a, some b => decide (a < b)
  | _, _ => false

/-- Strictly increasing chain of present indices. -/
def strictIncr : List (Option Nat) → Bool
  | [] => true
  | [x] => x.isSome
  | x :: y :: t => strictIncrPair x y && strictIncr (y :: t)

/-- The edit-record index conventions exactly as claim C9 words them:
indices present on the advancing side and strictly monotonic over the
records advancing that side. -/
def claimConventions {α : Type} (l : List (DiffResult α)) : Bool :=
  (l.isEmpty || (strictIncr (oldIdxSeq l) || (oldIdxSeq l).isEmpty) &&
    (strictIncr (newIdxSeq l) || (newIdxSeq l).isEmpty))

/-! ### State invariants -/

/-- The in-progress hunk of a state satisfies the length invariant. -/
def stateWfH {α : Type} : State α → Prop
  | .CollectingAdds hunk _ => optWf hunk
  | .CollectingCommonsTail hunk _ _ => optWf hunk
  | .CollectingCommonsCorked hunk _ => optWf hunk
  | .SequentialRemoves hunk _ => optWf hunk

/-- Every record buffered in a state (pending adds or queued commons) has
both offsets present. -/
def stateStored {α : Type} : State α → Prop
  | .CollectingAdds _ adds => ∀ d ∈ adds, recBoth d = true
  | .CollectingCommonsTail _ _ commons => ∀ d ∈ commons, recBoth d = true
  | .CollectingCommonsCorked _ commons => ∀ d ∈ commons, recBoth d = true
  | .SequentialRemoves _ adds => ∀ d ∈ adds, recBoth d = true

/-- The shapes reachable in the no-context variant. -/
def stateShapeNC {α : Type} : State α → Prop
  | .CollectingAdds _ _ => True
  | .SequentialRemoves _ _ => True
  | .CollectingCommonsTail _ _ _ => False
  | .CollectingCommonsCorked _ _ => False

/-! ### The wdiff intra-line renderer (wdiff.rs intra_line_write_wdiff) -/

/-- wdiff.rs WordDiffState. -/
inductive WordDiffState where
  | ShowingCommon
  | ShowingRemoves
  | ShowingAdds
deriving DecidableEq, Repr

/-- The loop body of intra_line_write_wdiff at byte granularity, one arm
per (state, record kind) pair; on end of input any open block is closed.
The Rust code appends to a line buffer; emission order is identical. -/
def wdiffGo : WordDiffState → List (DiffResult Byte) → List Byte
  | .ShowingCommon, [] => []
  | .ShowingAdds, [] => [125]
  | .ShowingRemoves, [] => [125]
  | .ShowingCommon, .Common el :: rest => el.data :: wdiffGo .ShowingCommon rest
  | .ShowingCommon, .Added el :: rest => 123 :: 43 :: el.data :: wdiffGo .ShowingAdds rest
  | .ShowingCommon, .Removed el :: rest => 123 :: 45 :: el.data :: wdiffGo .ShowingRemoves rest
  | .ShowingAdds, .Common el :: rest => 125 :: el.data :: wdiffGo .ShowingCommon rest
  | .ShowingAdds, .Added el :: rest => el.data :: wdiffGo .ShowingAdds rest
  | .ShowingAdds, .Removed el :: rest => 125 :: 123 :: 45 :: el.data :: wdiffGo .ShowingRemoves rest
  | .ShowingRemoves, .Common el :: rest => 125 :: el.data :: wdiffGo .ShowingCommon rest
  | .ShowingRemoves, .Added el :: rest => 125 :: 123 :: 43 :: el.data :: wdiffGo .ShowingAdds rest
  | .ShowingRemoves, .Removed el :: rest => el.data :: wdiffGo .ShowingRemoves rest

/-- wdiff.rs intra_line_write_wdiff at byte granularity: start in
ShowingCommon with an empty buffer. -/
def intra_line_write_wdiff (items : List (DiffResult Byte)) : List Byte :=
  wdiffGo .ShowingCommon items

/-- The group structure of a wdiff rendering: bare commons, add blocks,
remove blocks. -/
inductive WGroup where
  | common (b : Byte)
  | adds (bs : List Byte)
  | removes (bs : List Byte)
deriving DecidableEq, Repr

/-- Prepend an added byte to a group list, merging into a leading add run. -/
def pushAdd (b : Byte) : List WGroup → List WGroup
  | .adds bs :: gs => .adds (b :: bs) :: gs
  | [] => [.adds [b]]
  | .common c :: gs => .adds [b] :: .common c :: gs
  | .removes bs :: gs => .adds [b] :: .removes bs :: gs

/-- Prepend a removed byte to a group list, merging into a leading remove
run. -/
def pushRemove (b : Byte) : List WGroup → List WGroup
  | .removes bs :: gs => .removes (b :: bs) :: gs
  | [] => [.removes [b]]
  | .common c :: gs => .removes [b] :: .common c :: gs
  | .adds bs :: gs => .removes [b] :: .adds bs :: gs

/-- Group a byte edit sequence into maximal add runs, maximal remove runs
and single commons (the block structure the renderer emits). -/
def wgroups : List (DiffResult Byte) → List WGroup
  | [] => []
  | .Common el :: rest => .common el.data :: wgroups rest
  | .Added el :: rest => pushAdd el.data (wgroups rest)
  | .Removed el :: rest => pushRemove el.data (wgroups rest)

/-- Serialize one group: add blocks wrapped in brace-plus ... brace,
remove blocks in brace-minus ... brace, commons bare. -/
def flattenWGroup : WGroup → List Byte
  | .common b => [b]
  | .adds bs => 123 :: 43 :: (bs ++ [125])
  | .removes bs => 123 :: 45 :: (bs ++ [125])

/-- Serialize a group list. -/
def flattenW : List WGroup → List Byte
  | [] => []
  | g :: gs => flattenWGroup g ++ flattenW gs

/-- Serialize a group list given the state the renderer is currently in
(an open add or remove block continues, then is closed). -/
def flattenFrom : WordDiffState → List WGroup → List Byte
  | .ShowingCommon, gs => flattenW gs
  | .ShowingAdds, .adds bs :: gs => bs ++ 125 :: flattenW gs
  | .ShowingAdds, [] => [125]
  | .ShowingAdds, .common b :: gs => 125 :: flattenW (.common b :: gs)
  | .ShowingAdds, .removes bs :: gs => 125 :: flattenW (.removes bs :: gs)
  | .ShowingRemoves, .removes bs :: gs => bs ++ 125 :: flattenW gs
  | .ShowingRemoves, [] => [125]
  | .ShowingRemoves, .common b :: gs => 125 :: flattenW (.common b :: gs)
  | .ShowingRemoves, .adds bs :: gs => 125 :: flattenW (.adds bs :: gs)

/-- Delete every add block and unwrap every remove block (keep its
contents): the old-side recovery transformation of claim C5. -/
def restoreOld : List WGroup → List Byte
  | [] => []
  | .common b :: gs => b :: restoreOld gs
  | .adds _ :: gs => restoreOld gs
  | .removes bs :: gs => bs ++ restoreOld gs

/-- Delete every remove block and unwrap every add block: the new-side
recovery transformation of claim C5. -/
def restoreNew : List WGroup → List Byte
  | [] => []
  | .common b :: gs => b :: restoreNew gs
  | .adds bs :: gs => bs ++ restoreNew gs
  | .removes _ :: gs => restoreNew gs

/-- The old side of a byte edit sequence: Common plus Removed data. -/
def oldData : List (DiffResult Byte) → List Byte
  | [] => []
  | .Common el :: rest => el.data :: oldData rest
  | .Removed el :: rest => el.data :: oldData rest
  | .Added _ :: rest => oldData rest

/-- The new side of a byte edit sequence: Common plus Added data. -/
def newData : List (DiffResult Byte) → List Byte
  | [] => []
  | .Common el :: rest => el.data :: newData rest
  | .Added el :: rest => el.data :: newData rest
  | .Removed _ :: rest => newData rest

/-! ### Word tokenization (wdiff.rs tokenize) -/

/-- The byte slice line[s..e] (Rust slice indexing on a byte vector). -/
def sliceL (l : List Byte) (s e : Nat) : List Byte :=
  (l.take e).drop s

/-- A regex word byte (ASCII): letter, digit or underscore. -/
def isWordByte (b : Byte) : Bool :=
  isAsciiAlpha b || isAsciiDigit b || b == 95

/-- Models the regex word boundary: position i (0 ≤ i ≤ len) is a boundary
iff exactly one of its neighbouring positions holds a word byte. -/
def isBoundary (l : List Byte) (i : Nat) : Bool :=
  (decide (i ≠ 0) && isWordByte (l.getD (i - 1) 0)) !=
    (decide (i < l.length) && isWordByte (l.getD i 0))

/-- All word-boundary positions of a line, in increasing order. -/
def boundaries (l : List Byte) : List Nat :=
  (List.range (l.length + 1)).filter (isBoundary l)

/-- Fields of a split: the text before the first match, between matches,
and after the last match (regex::bytes::Regex::split semantics for the
empty-width matches of a word-boundary pattern). -/
def splitFields (l : List Byte) (start : Nat) : List Nat → List (List Byte)
  | [] => [sliceL l start l.length]
  | m :: ms => sliceL l start m :: splitFields l m ms

/-- Models Regex::new(word-boundary).split(line) as used by tokenize. -/
def reSplitWB (l : List Byte) : List (List Byte) :=
  splitFields l 0 (boundaries l)

/-- wdiff.rs tokenize: split at word boundaries, then, when the last word
is longer than one byte and ends in a newline, pop it and push two slices
meant to be the word without the newline and the lone newline.  The Rust
index arithmetic uses usize; `len - wlen - 1` underflows (a panic) when the
last word is the whole line. -/
def tokenize (line : List Byte) : Except String (List (List Byte)) :=
  let words := reSplitWB line
  let need_split : Option Nat :=
    if words.length > 0 then
      let lastw := words.getLastD []
      let wlen := lastw.length
      if wlen > 1 then
        if lastw.getD (wlen - 1) 0 == 10 then some wlen else none
      else none
    else none
  match need_split with
  | none => .ok words
  | some wlen =>
    let len := line.length
    if len < wlen + 1 then
      .error "attempt to subtract with overflow"
    else
      .ok (words.dropLast ++
        [sliceL line (len - wlen - 1) (len - 2), sliceL line (len - 1) len])

/-! ### The Narrow character-class renderer (wdiff.rs narrow_do_common /
narrow_do_differences / skip_common) -/

/-- The merged class of a maximal change run: fold merge over the classes
of the changed bytes, seeded with the first one (narrow_do_differences). -/
def runCC (first : DiffResult Byte) (rest2 : List (DiffResult Byte)) :
    CharacterClass :=
  (rest2.takeWhile (fun d => !is_common d)).foldl
    (fun c d => c.merge (byteCC (res_data d))) (byteCC (res_data first))

/-- The absorption test used on neighbouring commons: the Any class
absorbs nothing, any other class absorbs the bytes it accepts. -/
def acceptsNonAny (cc : CharacterClass) (b : Byte) : Bool :=
  match cc with
  | .Any => false
  | _ => cc.accepts b

/-- narrow_do_differences: the count of buffered common bytes NOT absorbed
into the summarized group (walk the buffer from the right, skipping
accepted bytes; what remains is the verbatim left prefix). -/
def nUnsummarizable (cc : CharacterClass) (pre : List Byte) : Nat :=
  pre.length - (pre.reverse.takeWhile (acceptsNonAny cc)).length

/-- narrow_do_differences: print the class symbol unless the previously
printed class equals this one and every buffered common byte was absorbed. -/
def printCCFlag (prev : Option CharacterClass) (cc : CharacterClass)
    (n : Nat) : Bool :=
  match prev with
  | some p => if p = cc then n != 0 else true
  | none => true

/-- skip_common: a following common whose byte the class absorbs. -/
def skipCommonPred (cc : CharacterClass) (d : DiffResult Byte) : Bool :=
  is_common d && acceptsNonAny cc (res_data d)

/-- The mutual recursion narrow_do_common / narrow_do_differences,
flattened: absorb leading commons into the buffer, then summarize the next
change run, absorb compatible neighbours and recurse past them.  Each
cycle consumes at least the first record of a run, so fuel bounds the
number of cycles; the entry point supplies items.length + 1, which can
never be exhausted. -/
def narrowGo : Nat → Option CharacterClass → List Byte →
    List (DiffResult Byte) → List Byte
  | 0, _, _, _ => []
  | fuel + 1, prev, acc0, items =>
    let pre := acc0 ++ (items.takeWhile is_common).map res_data
    match items.dropWhile is_common with
    | [] => pre
    | first :: rest2 =>
      let cc := runCC first rest2
      let n := nUnsummarizable cc pre
      let rest3 := (rest2.dropWhile (fun d => !is_common d)).dropWhile
        (skipCommonPred cc)
      pre.take n ++
        (if printCCFlag prev cc n then ccBytes cc ++ [43] else []) ++
        narrowGo fuel (some cc) [] rest3

/-- intra_line_write_cc with the Narrow expansion: start with no previous
class and an empty buffer. -/
def intra_line_narrow (items : List (DiffResult Byte)) : List Byte :=
  narrowGo (items.length + 1) none [] items

/-- Modelled from the spec: claim C6's suppression condition — suppress
when the previous class equals the current one AND at least one common
byte was absorbed into the group.  Stated only to compare with the code's
printCCFlag. -/
def printCCFlagClaim (prev : Option CharacterClass) (cc : CharacterClass)
    (absorbed : Nat) : Bool :=
  match prev with
  | some p => if p = cc then absorbed == 0 else true
  | none => true

/-- Modelled from the spec: the Narrow renderer with claim C6's
suppression condition in place of the code's. -/
def narrowGoClaim : Nat → Option CharacterClass → List Byte →
    List (DiffResult Byte) → List Byte
  | 0, _, _, _ => []
  | fuel + 1, prev, acc0, items =>
    let pre := acc0 ++ (items.takeWhile is_common).map res_data
    match items.dropWhile is_common with
    | [] => pre
    | first :: rest2 =>
      let cc := runCC first rest2
      let n := nUnsummarizable cc pre
      let rest3 := (rest2.dropWhile (fun d => !is_common d)).dropWhile
        (skipCommonPred cc)
      pre.take n ++
        (if printCCFlagClaim prev cc (pre.length - n) then ccBytes cc ++ [43] else []) ++
        narrowGoClaim fuel (some cc) [] rest3

/-- Modelled from the spec: entry point of the claim-side Narrow renderer. -/
def intra_line_narrow_claim (items : List (DiffResult Byte)) : List Byte :=
  narrowGoClaim (items.length + 1) none [] items

/-! ### Selector projection (main.rs extract_re_matches) -/

/-- main.rs extract_re_matches.  The regex engine is external: its capture
result is passed in as an optional list of capture-group spans (groups
1..N, in declaration order).  On a match every group's bytes are appended
to the projection; on no match the line itself is the projection. -/
def extract_re_matches (line : List Byte)
    (caps : Option (List (Nat × Nat))) : List Byte :=
  match caps with
  | none => line
  | some gs => gs.foldl (fun ret m => ret ++ sliceL line m.1 m.2) []

/-- Modelled from the spec: the cursor-based projection described by claim
C8 (spec section 4.1 step 2), which skips any capture starting before the
previous capture's end.  Stated only to compare with the code's
extract_re_matches. -/
def extract_re_matches_claim (line : List Byte)
    (caps : Option (List (Nat × Nat))) : List Byte :=
  match caps with
  | none => line
  | some gs =>
    (gs.foldl (fun (acc : List Byte × Nat) m =>
      if m.1 < acc.2 then acc else (acc.1 ++ sliceL line m.1 m.2, m.2))
      ([], 0)).1

/-! ### The line-level renderer (hunked.rs DisplayableHunk::do_write for
Hunk of byte lines) -/

/-- The marker bytes emitted after a terminal record whose side's file
does not end in a newline. -/
def noNewlineMarker : List Byte :=
  strBytes "\n\\ No newline at end of file\n"

/-- The last byte of a line compared against the newline byte
(lo[lo.len() - 1] == b-newline; panics on an empty line). -/
def lastByteNl (l : List Byte) : Except String Bool :=
  match l.getLast? with
  | some c => .ok (c == 10)
  | none => .error "index out of bounds"

/-- The reverse pre-scan of do_write: find whether the last Removed (resp.
Added) record touching the last line of its file ends in a newline,
stopping early once both sides are known. -/
def prescanGo (old new : List (List Byte)) :
    List (DiffResult (List Byte)) → Option Bool → Option Bool →
      Except String (Option Bool × Option Bool)
  | [], lr, la => .ok (lr, la)
  | .Common _ :: rest, lr, la => prescanGo old new rest lr la
  | .Removed el :: rest, lr, la =>
    match lr with
    | some _ => prescanGo old new rest lr la
    | none =>
      match el.old_index with
      | none => .error "called Option::unwrap() on a None value"
      | some o =>
        if old.length = 0 then .error "attempt to subtract with overflow"
        else if o < old.length - 1 then prescanGo old new rest lr la
        else
          match old[o]? with
          | none => .error "index out of bounds"
          | some lo =>
            match lastByteNl lo with
            | .ok b =>
              if la.isSome then .ok (some b, la)
              else prescanGo old new rest (some b) la
            | .error e => .error e
  | .Added el :: rest, lr, la =>
    match la with
    | some _ => prescanGo old new rest lr la
    | none =>
      match el.new_index with
      | none => .error "called Option::unwrap() on a None value"
      | some n =>
        if new.length = 0 then .error "attempt to subtract with overflow"
        else if n < new.length - 1 then prescanGo old new rest lr la
        else
          match new[n]? with
          | none => .error "index out of bounds"
          | some ln =>
            match lastByteNl ln with
            | .ok b =>
              if lr.isSome then .ok (lr, some b)
              else prescanGo old new rest lr (some b)
            | .error e => .error e

/-- One item of the emission loop of do_write.  The byte-level LCS differ
and the recursive changed-common rendering are external to this renderer:
they are passed in as diffFn and changedRender. -/
def writeItem (diffFn : List Byte → List Byte → List (DiffResult Byte))
    (changedRender : Nat → Nat → List Byte) (conf : Conf)
    (old new : List (List Byte)) (lr la : Option Bool) :
    DiffResult (List Byte) → Except String (List Byte)
  | .Common el =>
    match el.old_index, el.new_index with
    | some o, some n =>
      match old[o]?, new[n]? with
      | some lo, some ln =>
        if exist_differences (diffFn lo ln) then
          .ok ((if conf.mark_changed_context then [33] else [32]) ++
            changedRender o n)
        else
          .ok (32 :: lo)
      | _, _ => .error "index out of bounds"
    | _, _ => .error "Can't print DiffElement with neither side"
  | .Removed el =>
    match el.old_index with
    | some o =>
      match old[o]? with
      | some lo =>
        if o = old.length - 1 then
          match lr, la with
          | some onl, some nnl =>
            .ok (45 :: lo ++ if !onl && nnl then noNewlineMarker else [])
          | some false, none => .ok (45 :: lo ++ noNewlineMarker)
          | _, _ => .ok (45 :: lo)
        else .ok (45 :: lo)
      | none => .error "index out of bounds"
    | none => .error "Can't print DiffElement with neither side"
  | .Added el =>
    match el.new_index with
    | some n =>
      match new[n]? with
      | some ln =>
        if n = new.length - 1 then
          match lr, la with
          | some onl, some nnl =>
            .ok (43 :: ln ++ if onl && !nnl then noNewlineMarker else [])
          | none, some false => .ok (43 :: ln ++ noNewlineMarker)
          | _, _ => .ok (43 :: ln)
        else .ok (43 :: ln)
      | none => .error "index out of bounds"
    | none => .error "Can't print DiffElement with neither side"

/-- The emission loop of do_write over the hunk's items, in order. -/
def emitItems (diffFn : List Byte → List Byte → List (DiffResult Byte))
    (changedRender : Nat → Nat → List Byte) (conf : Conf)
    (old new : List (List Byte)) (lr la : Option Bool) :
    List (DiffResult (List Byte)) → Except String (List Byte)
  | [] => .ok []
  | d :: rest =>
    match writeItem diffFn changedRender conf old new lr la d with
    | .ok bs =>
      match emitItems diffFn changedRender conf old new lr la rest with
      | .ok bs2 => .ok (bs ++ bs2)
      | .error e => .error e
    | .error e => .error e

/-- hunked.rs do_write for a hunk of byte lines: header, reverse pre-scan
for the no-newline booleans, then the item emission loop. -/
def do_write (diffFn : List Byte → List Byte → List (DiffResult Byte))
    (changedRender : Nat → Nat → List Byte) (conf : Conf)
    (hunk : Hunk (List Byte)) (old new : List (List Byte)) :
    Except String (List Byte) :=
  match prescanGo old new hunk.items.reverse none none with
  | .ok (lr, la) =>
    match emitItems diffFn changedRender conf old new lr la hunk.items with
    | .ok body => .ok (strBytes (write_hunk_header hunk) ++ body)
    | .error e => .error e
  | .error e => .error e

/-- Does hay start with needle? -/
def listStarts : List Byte → List Byte → Bool
  | [], _ => true
  | _ :: _, [] => false
  | a :: as, b :: bs => a == b && listStarts as bs

/-- Does needle occur as a contiguous run inside hay? -/
def occursIn (needle : List Byte) : List Byte → Bool
  | [] => needle.isEmpty
  | b :: t => listStarts needle (b :: t) || occursIn needle t

/-! ### Concrete inputs used by witnesses and counterexamples -/

/-- Default configuration (context 3). -/
def confC2 : Conf := ⟨false, 3, false, .Wdiff, false⟩

/-- A canonical two-record diff: one removal then its replacing addition. -/
def diffC2 : List (DiffResult Nat) :=
  [.Removed ⟨some 0, none, 10⟩, .Added ⟨none, some 0, 11⟩]

/-- The single hunk the pipeline produces for diffC2. -/
def hunksC2 : List (Hunk Nat) :=
  [⟨0, 1, 0, 1,
    [.Removed ⟨some 0, some 0, 10⟩, .Added ⟨some 1, some 0, 11⟩]⟩]

/-- A diff whose only record has a present, strictly monotonic advancing
index that is not the running offset. -/
def diffC9 : List (DiffResult Nat) := [.Added ⟨none, some 5, 0⟩]

/-- The configuration of the C4 scenario: context 0, defaults otherwise. -/
def confC4 : Conf := ⟨false, 0, false, .Wdiff, false⟩

/-- Old file "a\nb": the final line lacks a trailing newline. -/
def oldC4 : List (List Byte) := [strBytes "a\n", strBytes "b"]

/-- New file "a\nc": the final line lacks a trailing newline. -/
def newC4 : List (List Byte) := [strBytes "a\n", strBytes "c"]

/-- The line diff of oldC4 and newC4 in lcs_diff order (adds before
removes). -/
def diffC4 : List (DiffResult (List Byte)) :=
  [.Common ⟨some 0, some 0, strBytes "a\n"⟩,
   .Added ⟨none, some 1, strBytes "c"⟩,
   .Removed ⟨some 1, none, strBytes "b"⟩]

/-- The hunk the pipeline produces for diffC4 at context 0: the mixed
remove/add pair of the two files' final lines. -/
def hunkC4 : Hunk (List Byte) :=
  ⟨1, 1, 1, 1,
   [.Removed ⟨some 1, some 2, strBytes "b"⟩,
    .Added ⟨some 1, some 1, strBytes "c"⟩]⟩

/-- Byte edit sequence with two Alpha change runs separated by the commons
space and letter a: the letter is absorbed into the second run's class but
the space is not. -/
def itemsC6 : List (DiffResult Byte) :=
  [.Removed ⟨some 0, some 0, 98⟩, .Added ⟨some 1, some 0, 120⟩,
   .Common ⟨some 1, some 1, 32⟩, .Common ⟨some 2, some 2, 97⟩,
   .Removed ⟨some 3, some 3, 99⟩, .Added ⟨some 4, some 3, 121⟩,
   .Common ⟨some 4, some 4, 10⟩]

/-- The head of itemsC6 (a change record), used by the C6 witness. -/
def firstC6 : DiffResult Byte := .Removed ⟨some 0, some 0, 98⟩

/-- The tail of itemsC6, used by the C6 witness. -/
def restC6 : List (DiffResult Byte) :=
  [.Added ⟨some 1, some 0, 120⟩,
   .Common ⟨some 1, some 1, 32⟩, .Common ⟨some 2, some 2, 97⟩,
   .Removed ⟨some 3, some 3, 99⟩, .Added ⟨some 4, some 3, 121⟩,
   .Common ⟨some 4, some 4, 10⟩]

end Subdiff

namespace Subdiff

/-! ## Theorems -/

/-- A record with both offsets present can always seed a hunk. -/
theorem fromDiff_ok {α : Type} (d : DiffResult α) (h : recBoth d = true) :
    ∃ hk, Hunk.fromDiff d = .ok hk := by
  rcases hd : diff_offsets d with ⟨o, n⟩
  cases o with
  | none => simp [recBoth, hd] at h
  | some o =>
    cases n with
    | none => simp [recBoth, hd] at h
    | some n => exact ⟨⟨o, 0, n, 0, []⟩, by simp [Hunk.fromDiff, hd]⟩

/-- Appending a backfilled record never panics. -/
theorem appendH_ok {α : Type} (hunk : Option (Hunk α)) (d : DiffResult α)
    (h : recBoth d = true) : ∃ h2, appendH hunk d = .ok h2 := by
  cases hunk with
  | some hk => exact ⟨_, rfl⟩
  | none =>
    obtain ⟨hk, hfd⟩ := fromDiff_ok d h
    exact ⟨hk.append d, by simp [appendH, hfd]⟩

/-- Draining a list of backfilled records never panics. -/
theorem consumeH_ok {α : Type} (ds : List (DiffResult α)) :
    ∀ hunk : Option (Hunk α), (∀ d ∈ ds, recBoth d = true) →
      ∃ hunk2, consumeH hunk ds = .ok hunk2 := by
  induction ds with
  | nil => exact fun hunk _ => ⟨hunk, rfl⟩
  | cons d ds ih =>
    intro hunk hall
    obtain ⟨h2, hap⟩ := appendH_ok hunk d (hall d (by simp))
    obtain ⟨hunk2, hc⟩ := ih (some h2) (fun x hx => hall x (by simp [hx]))
    exact ⟨hunk2, by simp [consumeH, hap, hc]⟩

/-- C1: in state CollectingCommonsCorked with queue Q and context k > 0, an
arriving Common record drains Q into the current hunk and moves to
CollectingCommonsTail with seen-count 1 and the record as the only queued
common when the queue already holds k commons; otherwise it is enqueued
and the state stays CollectingCommonsCorked.  No hunk is flushed either way. -/
theorem corked_common_transition {α : Type} (conf : Conf)
    (hunk : Option (Hunk α)) (Q : List (DiffResult α)) (el : DiffElement α)
    (_hk : 0 < conf.context) (hQ : ∀ d ∈ Q, recBoth d = true) :
    (Q.length = conf.context →
      ∃ hunk2, consumeH hunk Q = .ok hunk2 ∧
        fsm conf (.CollectingCommonsCorked hunk Q) (.Common el) =
          .ok ([], .CollectingCommonsTail hunk2 1 [.Common el])) ∧
    (Q.length < conf.context →
      fsm conf (.CollectingCommonsCorked hunk Q) (.Common el) =
        .ok ([], .CollectingCommonsCorked hunk (Q ++ [.Common el]))) := by
  constructor
  · intro hlen
    obtain ⟨hunk2, hc⟩ := consumeH_ok Q hunk hQ
    exact ⟨hunk2, hc, by simp [fsm, hlen, hc]⟩
  · intro hlen
    have hne : Q.length ≠ conf.context := by omega
    simp [fsm, hne]

/-- Witness for C1: both branches at concrete inputs (k = 1 full queue,
k = 2 partial queue). -/
theorem corked_common_transition_witness :
    (∃ hunk2,
      consumeH (none : Option (Hunk Nat)) [.Common ⟨some 0, some 0, 7⟩] = .ok hunk2 ∧
      fsm ⟨false, 1, false, .Wdiff, false⟩
          (.CollectingCommonsCorked none [.Common ⟨some 0, some 0, 7⟩])
          (.Common ⟨some 1, some 1, 8⟩) =
        .ok ([], .CollectingCommonsTail hunk2 1 [.Common ⟨some 1, some 1, 8⟩])) ∧
    fsm ⟨false, 2, false, .Wdiff, false⟩
        (.CollectingCommonsCorked (none : Option (Hunk Nat)) [.Common ⟨some 0, some 0, 7⟩])
        (.Common ⟨some 1, some 1, 8⟩) =
      .ok ([], .CollectingCommonsCorked none
        [.Common ⟨some 0, some 0, 7⟩, .Common ⟨some 1, some 1, 8⟩]) :=
  ⟨(corked_common_transition ⟨false, 1, false, .Wdiff, false⟩ none _ _
      (by decide) (by decide)).1 rfl,
   (corked_common_transition ⟨false, 2, false, .Wdiff, false⟩ none _ _
      (by decide) (by decide)).2 (by decide)⟩

/-- Hunk::initial satisfies the length invariant. -/
theorem initial_wf {α : Type} : hunkWf (Hunk.initial : Hunk α) := by
  constructor <;> rfl

/-- Hunk::append preserves the length invariant. -/
theorem append_wf {α : Type} (h : Hunk α) (d : DiffResult α) (hw : hunkWf h) :
    hunkWf (h.append d) := by
  obtain ⟨h1, h2⟩ := hw
  cases d <;>
    simp [Hunk.append, hunkWf, List.countP_append, List.countP_cons,
      isOldItem, isNewItem, h1, h2]

/-- Hunk::from_diff yields a hunk satisfying the length invariant. -/
theorem fromDiff_wf {α : Type} (d : DiffResult α) (h : Hunk α)
    (hfd : Hunk.fromDiff d = .ok h) : hunkWf h := by
  rcases hd : diff_offsets d with ⟨o, n⟩
  cases o <;> cases n <;> simp [Hunk.fromDiff, hd] at hfd
  subst hfd
  constructor <;> rfl

/-- The append helper preserves the length invariant. -/
theorem appendH_wf {α : Type} (hunk : Option (Hunk α)) (d : DiffResult α)
    (h2 : Hunk α) (hap : appendH hunk d = .ok h2) (hw : optWf hunk) :
    hunkWf h2 := by
  cases hunk with
  | some hk =>
    simp [appendH] at hap
    exact hap ▸ append_wf hk d hw
  | none =>
    cases hfd : Hunk.fromDiff d with
    | ok hk =>
      simp [appendH, hfd] at hap
      exact hap ▸ append_wf hk d (fromDiff_wf d hk hfd)
    | error e => simp [appendH, hfd] at hap

/-- Draining records preserves the length invariant. -/
theorem consumeH_wf {α : Type} (ds : List (DiffResult α)) :
    ∀ (hunk hunk2 : Option (Hunk α)), consumeH hunk ds = .ok hunk2 →
      optWf hunk → optWf hunk2 := by
  induction ds with
  | nil =>
    intro hunk hunk2 hc hw
    simp [consumeH] at hc
    exact hc ▸ hw
  | cons d ds ih =>
    intro hunk hunk2 hc hw
    cases hap : appendH hunk d with
    | ok h =>
      exact ih (some h) hunk2 (by simpa [consumeH, hap] using hc) (appendH_wf hunk d h hap hw)
    | error e => simp [consumeH, hap] at hc

/-- Hunks extracted from a well-formed optional hunk are well formed. -/
theorem toList_wf {α : Type} (hunk : Option (Hunk α)) (hw : optWf hunk) :
    ∀ h ∈ hunk.toList, hunkWf h := by
  cases hunk with
  | none => simp
  | some hk => simpa using hw

/-- One fsm transition preserves the hunk length invariant, and every hunk
it flushes satisfies it. -/
theorem fsm_wf {α : Type} (conf : Conf) (st : State α) (d : DiffResult α)
    (em : List (Hunk α)) (st2 : State α)
    (hstep : fsm conf st d = .ok (em, st2)) (hw : stateWfH st) :
    stateWfH st2 ∧ ∀ h ∈ em, hunkWf h := by
  cases st with
  | CollectingAdds hunk adds =>
    cases d with
    | Added el =>
      simp [fsm] at hstep
      obtain ⟨he, hs⟩ := hstep
      subst he; subst hs
      exact ⟨hw, by simp⟩
    | Removed el =>
      cases hap : appendH hunk (.Removed el) with
      | ok h =>
        simp [fsm, hap] at hstep
        obtain ⟨he, hs⟩ := hstep
        subst he; subst hs
        exact ⟨appendH_wf _ _ _ hap hw, by simp⟩
      | error e => simp [fsm, hap] at hstep
    | Common el =>
      cases hc : consumeH hunk adds with
      | ok hunk2 =>
        simp [fsm, hc] at hstep
        obtain ⟨he, hs⟩ := hstep
        subst he; subst hs
        exact ⟨consumeH_wf _ _ _ hc hw, by simp⟩
      | error e => simp [fsm, hc] at hstep
  | CollectingCommonsTail hunk seen commons =>
    have hw1 : optWf (if seen > conf.context then none else hunk) := by
      by_cases hs : seen > conf.context
      · simp only [if_pos hs]; trivial
      · simp only [if_neg hs]; exact hw
    have hem : ∀ h ∈ (if seen > conf.context then hunk.toList else []), hunkWf h := by
      by_cases hs : seen > conf.context
      · simp only [if_pos hs]; exact toList_wf hunk hw
      · simp [hs]
    cases d with
    | Added el =>
      cases hc : consumeH (if seen > conf.context then none else hunk) commons with
      | ok hunk2 =>
        simp [fsm, hc] at hstep
        obtain ⟨he, hs⟩ := hstep
        subst he; subst hs
        exact ⟨consumeH_wf _ _ _ hc hw1, hem⟩
      | error e => simp [fsm, hc] at hstep
    | Removed el =>
      cases hc : consumeH (if seen > conf.context then none else hunk) commons with
      | ok hunk2 =>
        cases hap : appendH hunk2 (.Removed el) with
        | ok h =>
          simp [fsm, hc, hap] at hstep
          obtain ⟨he, hs⟩ := hstep
          subst he; subst hs
          exact ⟨appendH_wf _ _ _ hap (consumeH_wf _ _ _ hc hw1), hem⟩
        | error e => simp [fsm, hc, hap] at hstep
      | error e => simp [fsm, hc] at hstep
    | Common el =>
      simp [fsm] at hstep
      obtain ⟨he, hs⟩ := hstep
      subst he; subst hs
      exact ⟨hw1, hem⟩
  | CollectingCommonsCorked hunk commons =>
    cases d with
    | Added el =>
      cases hc : consumeH hunk commons with
      | ok hunk2 =>
        simp [fsm, hc] at hstep
        obtain ⟨he, hs⟩ := hstep
        subst he; subst hs
        exact ⟨consumeH_wf _ _ _ hc hw, by simp⟩
      | error e => simp [fsm, hc] at hstep
    | Removed el =>
      cases hc : consumeH hunk commons with
      | ok hunk2 =>
        cases hap : appendH hunk2 (.Removed el) with
        | ok h =>
          simp [fsm, hc, hap] at hstep
          obtain ⟨he, hs⟩ := hstep
          subst he; subst hs
          exact ⟨appendH_wf _ _ _ hap (consumeH_wf _ _ _ hc hw), by simp⟩
        | error e => simp [fsm, hc, hap] at hstep
      | error e => simp [fsm, hc] at hstep
    | Common el =>
      by_cases hlen : commons.length = conf.context
      · cases hc : consumeH hunk commons with
        | ok hunk2 =>
          simp [fsm, hlen, hc] at hstep
          obtain ⟨he, hs⟩ := hstep
          subst he; subst hs
          exact ⟨consumeH_wf _ _ _ hc hw, by simp⟩
        | error e => simp [fsm, hlen, hc] at hstep
      · simp [fsm, hlen] at hstep
        obtain ⟨he, hs⟩ := hstep
        subst he; subst hs
        exact ⟨hw, by simp⟩
  | SequentialRemoves hunk adds =>
    cases d with
    | Added el =>
      cases hc : consumeH hunk adds with
      | ok hunk2 =>
        simp [fsm, hc] at hstep
        obtain ⟨he, hs⟩ := hstep
        subst he; subst hs
        exact ⟨consumeH_wf _ _ _ hc hw, by simp⟩
      | error e => simp [fsm, hc] at hstep
    | Removed el =>
      cases hap : appendH hunk (.Removed el) with
      | ok h =>
        simp [fsm, hap] at hstep
        obtain ⟨he, hs⟩ := hstep
        subst he; subst hs
        exact ⟨appendH_wf _ _ _ hap hw, by simp⟩
      | error e => simp [fsm, hap] at hstep
    | Common el =>
      cases hc : consumeH hunk adds with
      | ok hunk2 =>
        simp [fsm, hc] at hstep
        obtain ⟨he, hs⟩ := hstep
        subst he; subst hs
        exact ⟨consumeH_wf _ _ _ hc hw, by simp⟩
      | error e => simp [fsm, hc] at hstep

/-- One no-context fsm transition preserves the hunk length invariant. -/
theorem fsm_nocontext_wf {α : Type} (conf : Conf) (st : State α)
    (d : DiffResult α) (em : List (Hunk α)) (st2 : State α)
    (hstep : fsm_nocontext conf st d = .ok (em, st2)) (hw : stateWfH st) :
    stateWfH st2 ∧ ∀ h ∈ em, hunkWf h := by
  cases st with
  | CollectingAdds hunk adds =>
    cases d with
    | Added el =>
      simp [fsm_nocontext] at hstep
      obtain ⟨he, hs⟩ := hstep
      subst he; subst hs
      exact ⟨hw, by simp⟩
    | Removed el =>
      cases hap : appendH hunk (.Removed el) with
      | ok h =>
        simp [fsm_nocontext, hap] at hstep
        obtain ⟨he, hs⟩ := hstep
        subst he; subst hs
        exact ⟨appendH_wf _ _ _ hap hw, by simp⟩
      | error e => simp [fsm_nocontext, hap] at hstep
    | Common el =>
      cases hc : consumeH hunk adds with
      | ok hunk2 =>
        simp [fsm_nocontext, hc] at hstep
        obtain ⟨he, hs⟩ := hstep
        subst he; subst hs
        exact ⟨trivial, toList_wf hunk2 (consumeH_wf _ _ _ hc hw)⟩
      | error e => simp [fsm_nocontext, hc] at hstep
  | SequentialRemoves hunk adds =>
    cases d with
    | Added el =>
      cases hc : consumeH hunk adds with
      | ok hunk2 =>
        simp [fsm_nocontext, hc] at hstep
        obtain ⟨he, hs⟩ := hstep
        subst he; subst hs
        exact ⟨consumeH_wf _ _ _ hc hw, by simp⟩
      | error e => simp [fsm_nocontext, hc] at hstep
    | Removed el =>
      cases hap : appendH hunk (.Removed el) with
      | ok h =>
        simp [fsm_nocontext, hap] at hstep
        obtain ⟨he, hs⟩ := hstep
        subst he; subst hs
        exact ⟨appendH_wf _ _ _ hap hw, by simp⟩
      | error e => simp [fsm_nocontext, hap] at hstep
    | Common el =>
      cases hc : consumeH hunk adds with
      | ok hunk2 =>
        simp [fsm_nocontext, hc] at hstep
        obtain ⟨he, hs⟩ := hstep
        subst he; subst hs
        exact ⟨trivial, toList_wf hunk2 (consumeH_wf _ _ _ hc hw)⟩
      | error e => simp [fsm_nocontext, hc] at hstep
  | CollectingCommonsCorked hunk commons => simp [fsm_nocontext] at hstep
  | CollectingCommonsTail hunk seen commons => simp [fsm_nocontext] at hstep

/-- The initial state satisfies the hunk length invariant. -/
theorem setup_initial_wf {α : Type} (d : DiffResult α) :
    stateWfH (setup_initial_state d) := by
  cases d with
  | Common el => trivial
  | Added el => exact initial_wf
  | Removed el => exact append_wf _ _ initial_wf

/-- The no-context initial state satisfies the hunk length invariant. -/
theorem setup_initial_nocontext_wf {α : Type} (d : DiffResult α) (st : State α)
    (h : setup_initial_state_nocontext d = .ok st) : stateWfH st := by
  cases d with
  | Common el =>
    simp [setup_initial_state_nocontext] at h
    subst h; trivial
  | Added el =>
    cases hfd : Hunk.fromDiff (DiffResult.Added el) with
    | ok hk =>
      simp [setup_initial_state_nocontext, hfd] at h
      subst h
      exact fromDiff_wf _ _ hfd
    | error e => simp [setup_initial_state_nocontext, hfd] at h
  | Removed el =>
    cases hfd : Hunk.fromDiff (DiffResult.Removed el) with
    | ok hk =>
      simp [setup_initial_state_nocontext, hfd] at h
      subst h
      exact append_wf _ _ (fromDiff_wf _ _ hfd)
    | error e => simp [setup_initial_state_nocontext, hfd] at h

/-- The record loop preserves the hunk length invariant and only flushes
well-formed hunks. -/
theorem runFsm_wf {α : Type} (conf : Conf) (rest : List (DiffResult α)) :
    ∀ (off : FileOffsets) (st : State α) (em : List (Hunk α)) (stF : State α),
      runFsm conf rest off st = .ok (em, stF) → stateWfH st →
        stateWfH stF ∧ ∀ h ∈ em, hunkWf h := by
  induction rest with
  | nil =>
    intro off st em stF hrun hw
    simp [runFsm] at hrun
    obtain ⟨he, hs⟩ := hrun
    subst he; subst hs
    exact ⟨hw, by simp⟩
  | cons d rest ih =>
    intro off st em stF hrun hw
    cases hu : update_indices off d with
    | ok d2 =>
      cases hstep : (if conf.context > 0 then fsm conf st d2
                     else fsm_nocontext conf st d2) with
      | ok p =>
        obtain ⟨em1, st21⟩ := p
        cases hrec : runFsm conf rest (off.observe d2) st21 with
        | ok q =>
          obtain ⟨em2, stF2⟩ := q
          simp [runFsm, hu, hstep, hrec] at hrun
          obtain ⟨he, hs⟩ := hrun
          subst he; subst hs
          have hmid : stateWfH st21 ∧ ∀ h ∈ em1, hunkWf h := by
            by_cases hctx : conf.context > 0
            · exact fsm_wf conf st d2 em1 st21 (by simpa [hctx] using hstep) hw
            · exact fsm_nocontext_wf conf st d2 em1 st21 (by simpa [hctx] using hstep) hw
          have hrest := ih (off.observe d2) st21 em2 stF2 hrec hmid.1
          refine ⟨hrest.1, ?_⟩
          intro h hm
          rcases List.mem_append.mp hm with hm1 | hm2
          · exact hmid.2 h hm1
          · exact hrest.2 h hm2
        | error e => simp [runFsm, hu, hstep, hrec] at hrun
      | error e => simp [runFsm, hu, hstep] at hrun
    | error e => simp [runFsm, hu] at hrun

/-- The final cleanup yields a well-formed hunk. -/
theorem handle_final_wf {α : Type} (st : State α) (ho : Option (Hunk α))
    (h : handle_final_state st = .ok ho) (hw : stateWfH st) : optWf ho := by
  cases st with
  | CollectingAdds hunk adds => exact consumeH_wf _ _ _ h hw
  | CollectingCommonsTail hunk seen commons =>
    simp [handle_final_state] at h
    exact h ▸ hw
  | CollectingCommonsCorked hunk commons => exact consumeH_wf _ _ _ h hw
  | SequentialRemoves hunk adds => exact consumeH_wf _ _ _ h hw

/-- C2: every hunk flushed by the pipeline (during the run or at end of
stream) has old_len equal to its count of Common plus Removed items and
new_len equal to its count of Common plus Added items, for every diff
sequence and configuration on which the pipeline runs. -/
theorem hunk_lengths_invariant {α : Type} (conf : Conf)
    (diff : List (DiffResult α)) (hunks : List (Hunk α))
    (h : display_diff_hunked conf diff = .ok hunks) :
    ∀ hk ∈ hunks, hunkWf hk := by
  cases diff with
  | nil => simp [display_diff_hunked] at h
  | cons first rest =>
    cases hu : update_indices ⟨0, 0⟩ first with
    | ok first2 =>
      cases hsetup : (if conf.context > 0 then
                        .ok (setup_initial_state first2)
                      else
                        setup_initial_state_nocontext first2 :
                      Except String (State α)) with
      | ok st =>
        cases hrun : runFsm conf rest (FileOffsets.observe ⟨0, 0⟩ first2) st with
        | ok p =>
          obtain ⟨em, stF⟩ := p
          cases hfin : handle_final_state stF with
          | ok finalHunk =>
            simp [display_diff_hunked, hu, hsetup, hrun, hfin] at h
            subst h
            have hst : stateWfH st := by
              by_cases hctx : conf.context > 0
              · simp [hctx] at hsetup
                exact hsetup ▸ setup_initial_wf first2
              · exact setup_initial_nocontext_wf first2 st (by simpa [hctx] using hsetup)
            have hmain := runFsm_wf conf rest _ st em stF hrun hst
            intro hk hm
            rcases List.mem_append.mp hm with hm1 | hm2
            · exact hmain.2 hk hm1
            · exact toList_wf finalHunk (handle_final_wf stF finalHunk hfin hmain.1) hk hm2
          | error e => simp [display_diff_hunked, hu, hsetup, hrun, hfin] at h
        | error e => simp [display_diff_hunked, hu, hsetup, hrun] at h
      | error e => simp [display_diff_hunked, hu, hsetup] at h
    | error e => simp [display_diff_hunked, hu] at h

/-- Witness for C2: the invariant checked on the hunk flushed for a
concrete two-record diff. -/
theorem hunk_lengths_invariant_witness :
    display_diff_hunked confC2 diffC2 = .ok hunksC2 ∧
      ∀ hk ∈ hunksC2, hunkWf hk :=
  ⟨rfl, hunk_lengths_invariant confC2 diffC2 hunksC2 rfl⟩

/-- Backfill succeeds on the head of a canonically-indexed sequence and
yields a record with both offsets, leaving the tail canonically indexed at
the advanced offsets. -/
theorem update_indices_ok {α : Type} (off : FileOffsets) (d : DiffResult α)
    (rest : List (DiffResult α)) (hwf : wellFormed off (d :: rest) = true) :
    ∃ d2, update_indices off d = .ok d2 ∧ recBoth d2 = true ∧
      wellFormed (off.observe d2) rest = true := by
  cases d with
  | Added el =>
    simp only [wellFormed, Bool.and_eq_true, beq_iff_eq] at hwf
    refine ⟨.Added { el with old_index := some off.old_off }, ?_, ?_, ?_⟩
    · simp [update_indices, hwf.1]
    · simp [recBoth, diff_offsets, hwf.1]
    · exact hwf.2
  | Removed el =>
    simp only [wellFormed, Bool.and_eq_true, beq_iff_eq] at hwf
    refine ⟨.Removed { el with new_index := some off.new_off }, ?_, ?_, ?_⟩
    · simp [update_indices, hwf.1]
    · simp [recBoth, diff_offsets, hwf.1]
    · exact hwf.2
  | Common el =>
    simp only [wellFormed, Bool.and_eq_true, beq_iff_eq] at hwf
    refine ⟨.Common el, ?_, ?_, ?_⟩
    · simp [update_indices, hwf.1.1, hwf.1.2]
    · simp [recBoth, diff_offsets, hwf.1.1, hwf.1.2]
    · exact hwf.2

/-- One fsm transition on a backfilled record never panics and keeps every
buffered record backfilled. -/
theorem fsm_ok {α : Type} (conf : Conf) (st : State α) (d : DiffResult α)
    (hst : stateStored st) (hd : recBoth d = true) :
    ∃ em st2, fsm conf st d = .ok (em, st2) ∧ stateStored st2 := by
  cases st with
  | CollectingAdds hunk adds =>
    cases d with
    | Added el =>
      refine ⟨[], .CollectingAdds hunk (adds ++ [.Added el]), by simp [fsm], ?_⟩
      intro x hx
      rcases List.mem_append.mp hx with h1 | h2
      · exact hst x h1
      · simp at h2; subst h2; exact hd
    | Removed el =>
      obtain ⟨h, hap⟩ := appendH_ok hunk (.Removed el) hd
      exact ⟨[], .SequentialRemoves (some h) adds, by simp [fsm, hap], hst⟩
    | Common el =>
      obtain ⟨hunk2, hc⟩ := consumeH_ok adds hunk hst
      refine ⟨[], .CollectingCommonsCorked hunk2 [.Common el], by simp [fsm, hc], ?_⟩
      intro x hx
      simp at hx; subst hx; exact hd
  | CollectingCommonsTail hunk seen commons =>
    cases d with
    | Added el =>
      obtain ⟨hunk2, hc⟩ :=
        consumeH_ok commons (if seen > conf.context then none else hunk) hst
      refine ⟨(if seen > conf.context then hunk.toList else []),
        .CollectingAdds hunk2 [.Added el], by simp [fsm, hc], ?_⟩
      intro x hx
      simp at hx; subst hx; exact hd
    | Removed el =>
      obtain ⟨hunk2, hc⟩ :=
        consumeH_ok commons (if seen > conf.context then none else hunk) hst
      obtain ⟨h, hap⟩ := appendH_ok hunk2 (.Removed el) hd
      refine ⟨(if seen > conf.context then hunk.toList else []),
        .SequentialRemoves (some h) [], by simp [fsm, hc, hap], ?_⟩
      intro x hx; simp at hx
    | Common el =>
      refine ⟨(if seen > conf.context then hunk.toList else []),
        .CollectingCommonsTail (if seen > conf.context then none else hunk)
          (seen + 1)
          (if (commons ++ [DiffResult.Common el]).length > conf.context then
            (commons ++ [DiffResult.Common el]).tail
          else commons ++ [DiffResult.Common el]),
        by simp [fsm], ?_⟩
      have hc2 : ∀ x ∈ commons ++ [DiffResult.Common el], recBoth x = true := by
        intro x hx
        rcases List.mem_append.mp hx with h1 | h2
        · exact hst x h1
        · simp at h2; subst h2; exact hd
      by_cases hl : (commons ++ [DiffResult.Common el]).length > conf.context
      · simp only [if_pos hl]
        exact fun x hx => hc2 x ((List.tail_sublist _).subset hx)
      · simp only [if_neg hl]
        exact hc2
  | CollectingCommonsCorked hunk commons =>
    cases d with
    | Added el =>
      obtain ⟨hunk2, hc⟩ := consumeH_ok commons hunk hst
      refine ⟨[], .CollectingAdds hunk2 [.Added el], by simp [fsm, hc], ?_⟩
      intro x hx; simp at hx; subst hx; exact hd
    | Removed el =>
      obtain ⟨hunk2, hc⟩ := consumeH_ok commons hunk hst
      obtain ⟨h, hap⟩ := appendH_ok hunk2 (.Removed el) hd
      refine ⟨[], .SequentialRemoves (some h) [], by simp [fsm, hc, hap], ?_⟩
      intro x hx; simp at hx
    | Common el =>
      by_cases hlen : commons.length = conf.context
      · obtain ⟨hunk2, hc⟩ := consumeH_ok commons hunk hst
        refine ⟨[], .CollectingCommonsTail hunk2 1 [.Common el],
          by simp [fsm, hlen, hc], ?_⟩
        intro x hx; simp at hx; subst hx; exact hd
      · refine ⟨[], .CollectingCommonsCorked hunk (commons ++ [.Common el]),
          by simp [fsm, hlen], ?_⟩
        intro x hx
        rcases List.mem_append.mp hx with h1 | h2
        · exact hst x h1
        · simp at h2; subst h2; exact hd
  | SequentialRemoves hunk adds =>
    cases d with
    | Added el =>
      obtain ⟨hunk2, hc⟩ := consumeH_ok adds hunk hst
      refine ⟨[], .CollectingAdds hunk2 [.Added el], by simp [fsm, hc], ?_⟩
      intro x hx; simp at hx; subst hx; exact hd
    | Removed el =>
      obtain ⟨h, hap⟩ := appendH_ok hunk (.Removed el) hd
      exact ⟨[], .SequentialRemoves (some h) adds, by simp [fsm, hap], hst⟩
    | Common el =>
      obtain ⟨hunk2, hc⟩ := consumeH_ok adds hunk hst
      refine ⟨[], .CollectingCommonsCorked hunk2 [.Common el], by simp [fsm, hc], ?_⟩
      intro x hx; simp at hx; subst hx; exact hd

/-- One no-context fsm transition on a backfilled record never panics,
keeps every buffered record backfilled, and stays within the two
no-context shapes. -/
theorem fsm_nocontext_ok {α : Type} (conf : Conf) (st : State α)
    (d : DiffResult α) (hshape : stateShapeNC st) (hst : stateStored st)
    (hd : recBoth d = true) :
    ∃ em st2, fsm_nocontext conf st d = .ok (em, st2) ∧
      stateShapeNC st2 ∧ stateStored st2 := by
  cases st with
  | CollectingAdds hunk adds =>
    cases d with
    | Added el =>
      refine ⟨[], .CollectingAdds hunk (adds ++ [.Added el]),
        by simp [fsm_nocontext], trivial, ?_⟩
      intro x hx
      rcases List.mem_append.mp hx with h1 | h2
      · exact hst x h1
      · simp at h2; subst h2; exact hd
    | Removed el =>
      obtain ⟨h, hap⟩ := appendH_ok hunk (.Removed el) hd
      exact ⟨[], .SequentialRemoves (some h) adds,
        by simp [fsm_nocontext, hap], trivial, hst⟩
    | Common el =>
      obtain ⟨hunk2, hc⟩ := consumeH_ok adds hunk hst
      refine ⟨hunk2.toList, .SequentialRemoves none [],
        by simp [fsm_nocontext, hc], trivial, ?_⟩
      intro x hx; simp at hx
  | SequentialRemoves hunk adds =>
    cases d with
    | Added el =>
      obtain ⟨hunk2, hc⟩ := consumeH_ok adds hunk hst
      refine ⟨[], .CollectingAdds hunk2 [.Added el],
        by simp [fsm_nocontext, hc], trivial, ?_⟩
      intro x hx; simp at hx; subst hx; exact hd
    | Removed el =>
      obtain ⟨h, hap⟩ := appendH_ok hunk (.Removed el) hd
      exact ⟨[], .SequentialRemoves (some h) adds,
        by simp [fsm_nocontext, hap], trivial, hst⟩
    | Common el =>
      obtain ⟨hunk2, hc⟩ := consumeH_ok adds hunk hst
      refine ⟨hunk2.toList, .SequentialRemoves none [],
        by simp [fsm_nocontext, hc], trivial, ?_⟩
      intro x hx; simp at hx
  | CollectingCommonsCorked hunk commons => exact absurd hshape (by simp [stateShapeNC])
  | CollectingCommonsTail hunk seen commons => exact absurd hshape (by simp [stateShapeNC])

/-- The initial state only buffers the backfilled first record. -/
theorem setup_initial_stored {α : Type} (d : DiffResult α)
    (hd : recBoth d = true) : stateStored (setup_initial_state d) := by
  cases d with
  | Common el => intro x hx; simp [setup_initial_state] at hx; subst hx; exact hd
  | Added el => intro x hx; simp [setup_initial_state] at hx; subst hx; exact hd
  | Removed el => intro x hx; simp [setup_initial_state] at hx

/-- The no-context initial state never panics on a backfilled record and
stays within the two no-context shapes. -/
theorem setup_initial_nocontext_ok {α : Type} (d : DiffResult α)
    (hd : recBoth d = true) :
    ∃ st, setup_initial_state_nocontext d = .ok st ∧
      stateShapeNC st ∧ stateStored st := by
  cases d with
  | Common el =>
    refine ⟨.SequentialRemoves none [], rfl, trivial, ?_⟩
    intro x hx; simp at hx
  | Added el =>
    obtain ⟨hk, hfd⟩ := fromDiff_ok (.Added el) hd
    refine ⟨.CollectingAdds (some hk) [.Added el],
      by simp [setup_initial_state_nocontext, hfd], trivial, ?_⟩
    intro x hx; simp at hx; subst hx; exact hd
  | Removed el =>
    obtain ⟨hk, hfd⟩ := fromDiff_ok (.Removed el) hd
    refine ⟨.SequentialRemoves (some (hk.append (.Removed el))) [],
      by simp [setup_initial_state_nocontext, hfd], trivial, ?_⟩
    intro x hx; simp at hx

/-- The record loop never panics on a canonically-indexed tail. -/
theorem runFsm_ok {α : Type} (conf : Conf) (rest : List (DiffResult α)) :
    ∀ (off : FileOffsets) (st : State α),
      wellFormed off rest = true → stateStored st →
      (conf.context > 0 ∨ stateShapeNC st) →
      ∃ em stF, runFsm conf rest off st = .ok (em, stF) ∧ stateStored stF := by
  induction rest with
  | nil => exact fun off st _ hst _ => ⟨[], st, rfl, hst⟩
  | cons d rest ih =>
    intro off st hwf hst hsh
    obtain ⟨d2, hu, hb, hwf2⟩ := update_indices_ok off d rest hwf
    by_cases hctx : conf.context > 0
    · obtain ⟨em, st2, hstep, hst2⟩ := fsm_ok conf st d2 hst hb
      obtain ⟨em2, stF, hrec, hstF⟩ := ih (off.observe d2) st2 hwf2 hst2 (Or.inl hctx)
      exact ⟨em ++ em2, stF, by simp [runFsm, hu, hctx, hstep, hrec], hstF⟩
    · have hshape : stateShapeNC st := hsh.resolve_left hctx
      obtain ⟨em, st2, hstep, hsh2, hst2⟩ := fsm_nocontext_ok conf st d2 hshape hst hb
      obtain ⟨em2, stF, hrec, hstF⟩ := ih (off.observe d2) st2 hwf2 hst2 (Or.inr hsh2)
      exact ⟨em ++ em2, stF, by simp [runFsm, hu, hctx, hstep, hrec], hstF⟩

/-- Final cleanup never panics when all buffered records are backfilled. -/
theorem handle_final_ok {α : Type} (st : State α) (hst : stateStored st) :
    ∃ ho, handle_final_state st = .ok ho := by
  cases st with
  | CollectingAdds hunk adds => exact consumeH_ok adds hunk hst
  | CollectingCommonsTail hunk seen commons => exact ⟨hunk, rfl⟩
  | CollectingCommonsCorked hunk commons => exact consumeH_ok commons hunk hst
  | SequentialRemoves hunk adds => exact consumeH_ok adds hunk hst

/-- C9 (amended): for every configuration, the hunk pipeline (index
backfill, both state-machine variants, hunk construction, final cleanup)
never fails on a non-empty diff sequence whose advancing-side indices are
exactly the running zero-based file offsets (the canonical lcs_diff
output). -/
theorem pipeline_total {α : Type} (conf : Conf) (diff : List (DiffResult α))
    (hne : diff ≠ []) (hwf : wellFormed ⟨0, 0⟩ diff = true) :
    ∃ hunks, display_diff_hunked conf diff = .ok hunks := by
  cases diff with
  | nil => exact absurd rfl hne
  | cons first rest =>
    obtain ⟨first2, hu, hb, hwf2⟩ := update_indices_ok ⟨0, 0⟩ first rest hwf
    by_cases hctx : conf.context > 0
    · have hst := setup_initial_stored first2 hb
      obtain ⟨em, stF, hrun, hstF⟩ :=
        runFsm_ok conf rest (FileOffsets.observe ⟨0, 0⟩ first2)
          (setup_initial_state first2) hwf2 hst (Or.inl hctx)
      obtain ⟨ho, hfin⟩ := handle_final_ok stF hstF
      exact ⟨em ++ ho.toList,
        by simp [display_diff_hunked, hu, hctx, hrun, hfin]⟩
    · obtain ⟨st, hsetup, hsh, hst⟩ := setup_initial_nocontext_ok first2 hb
      obtain ⟨em, stF, hrun, hstF⟩ :=
        runFsm_ok conf rest (FileOffsets.observe ⟨0, 0⟩ first2) st hwf2 hst (Or.inr hsh)
      obtain ⟨ho, hfin⟩ := handle_final_ok stF hstF
      exact ⟨em ++ ho.toList,
        by simp [display_diff_hunked, hu, hctx, hsetup, hrun, hfin]⟩

/-- Witness for C9 (amended): the pipeline succeeds on a concrete
non-empty canonically-indexed diff. -/
theorem pipeline_total_witness :
    ∃ hunks, display_diff_hunked confC2 diffC2 = .ok hunks :=
  pipeline_total confC2 diffC2 (by decide) rfl

/-- Counterexample to C9 as stated: a diff sequence whose indices are
present on the advancing side and strictly monotonic (but not equal to the
running offsets) makes the backfill assertion fail, and the empty diff
sequence (which satisfies the conventions vacuously) panics outright. -/
theorem pipeline_panics_on_monotonic_indices :
    claimConventions diffC9 = true ∧
    display_diff_hunked confC2 diffC9 =
      .error "assertion failed: el.new_index == Some(offsets.new_off)" ∧
    claimConventions ([] : List (DiffResult Nat)) = true ∧
    display_diff_hunked confC2 ([] : List (DiffResult Nat)) =
      .error "No differences at all, shouldn't have been called" :=
  ⟨by decide, rfl, by decide, rfl⟩

/-- The wdiff loop, started in any state, emits exactly the serialization
of the group structure of its input (continuing, then closing, any open
block). -/
theorem wdiffGo_flattenFrom (items : List (DiffResult Byte)) :
    ∀ st, wdiffGo st items = flattenFrom st (wgroups items) := by
  induction items with
  | nil => intro st; cases st <;> rfl
  | cons d rest ih =>
    intro st
    have hC := ih WordDiffState.ShowingCommon
    have hA := ih WordDiffState.ShowingAdds
    have hR := ih WordDiffState.ShowingRemoves
    cases st <;> cases d
    case ShowingCommon.Common el =>
      simp [wdiffGo, wgroups, flattenFrom, flattenW, flattenWGroup, hC]
    case ShowingAdds.Common el =>
      simp [wdiffGo, wgroups, flattenFrom, flattenW, flattenWGroup, hC]
    case ShowingRemoves.Common el =>
      simp [wdiffGo, wgroups, flattenFrom, flattenW, flattenWGroup, hC]
    all_goals
      rcases hg : wgroups rest with _ | ⟨g, gs⟩
    all_goals
      try cases g
    all_goals
      rw [hg] at hA hR
    all_goals
      simp [wdiffGo, wgroups, hg, pushAdd, pushRemove, flattenFrom, flattenW,
        flattenWGroup, hA, hR]

/-- Deleting add blocks and unwrapping remove blocks over the group
structure recovers the old side. -/
theorem restoreOld_wgroups (items : List (DiffResult Byte)) :
    restoreOld (wgroups items) = oldData items := by
  induction items with
  | nil => rfl
  | cons d rest ih =>
    have haux1 : ∀ (b : Byte) (gs : List WGroup),
        restoreOld (pushAdd b gs) = restoreOld gs := by
      intro b gs
      rcases gs with _ | ⟨g, t⟩
      · rfl
      · cases g <;> rfl
    have haux2 : ∀ (b : Byte) (gs : List WGroup),
        restoreOld (pushRemove b gs) = b :: restoreOld gs := by
      intro b gs
      rcases gs with _ | ⟨g, t⟩
      · rfl
      · cases g <;> rfl
    cases d with
    | Common el => simp [wgroups, restoreOld, oldData, ih]
    | Added el => simp [wgroups, haux1, oldData, ih]
    | Removed el => simp [wgroups, haux2, oldData, ih]

/-- Deleting remove blocks and unwrapping add blocks over the group
structure recovers the new side. -/
theorem restoreNew_wgroups (items : List (DiffResult Byte)) :
    restoreNew (wgroups items) = newData items := by
  induction items with
  | nil => rfl
  | cons d rest ih =>
    have haux1 : ∀ (b : Byte) (gs : List WGroup),
        restoreNew (pushAdd b gs) = b :: restoreNew gs := by
      intro b gs
      rcases gs with _ | ⟨g, t⟩
      · rfl
      · cases g <;> rfl
    have haux2 : ∀ (b : Byte) (gs : List WGroup),
        restoreNew (pushRemove b gs) = restoreNew gs := by
      intro b gs
      rcases gs with _ | ⟨g, t⟩
      · rfl
      · cases g <;> rfl
    cases d with
    | Common el => simp [wgroups, restoreNew, newData, ih]
    | Added el => simp [wgroups, haux1, newData, ih]
    | Removed el => simp [wgroups, haux2, newData, ih]

/-- C5: the wdiff rendering of a byte edit sequence is exactly the
serialization of its block structure, and on that structure deleting every
add block while unwrapping every remove block recovers the old side
(Common plus Removed data), and dually for the new side. -/
theorem wdiff_structural_roundtrip (items : List (DiffResult Byte)) :
    intra_line_write_wdiff items = flattenW (wgroups items) ∧
    restoreOld (wgroups items) = oldData items ∧
    restoreNew (wgroups items) = newData items := by
  refine ⟨?_, restoreOld_wgroups items, restoreNew_wgroups items⟩
  have h := wdiffGo_flattenFrom items .ShowingCommon
  simpa [intra_line_write_wdiff, flattenFrom] using h

/-- C7 (code bug): on the line "a#\n" the Word tokenizer returns tokens
whose concatenation is "aa\n", not the original line (the split of the
final word uses the slice one byte to the left of the correct one,
dropping the hash byte and duplicating the byte before it); the final
token is the lone newline as claimed.  On the line "#\n" the index
arithmetic underflows outright. -/
theorem tokenize_mangles_line :
    tokenize (strBytes "a#\n") = .ok [[], [97], [97], [10]] ∧
    [[], [97], [97], [10]].foldl (α := List Byte) (· ++ ·) [] = [97, 97, 10] ∧
    strBytes "a#\n" = [97, 35, 10] ∧
    ([97, 97, 10] : List Byte) ≠ [97, 35, 10] ∧
    [[], [97], [97], [10]].getLastD ([] : List Byte) = [10] ∧
    tokenize (strBytes "#\n") = .error "attempt to subtract with overflow" :=
  ⟨rfl, rfl, rfl, by decide, rfl, rfl⟩

/-- Counterexample to C8 as stated: with a nested capture (group 2 inside
group 1), the code appends both groups' bytes, while the claim's
cursor-based projection skips the nested one; the results differ on the
line "ab" with spans (0,2) and (0,1). -/
theorem extract_re_matches_keeps_nested :
    extract_re_matches [97, 98] (some [(0, 2), (0, 1)]) = [97, 98, 97] ∧
    extract_re_matches_claim [97, 98] (some [(0, 2), (0, 1)]) = [97, 98] ∧
    ([97, 98, 97] : List Byte) ≠ [97, 98] :=
  ⟨rfl, rfl, by decide⟩

/-- C8 (amended): the selector projection appends the bytes of every
capture group 1..N unconditionally and in declaration order — there is no
cursor and no skipping of nested captures — and a line the RE does not
match projects to itself. -/
theorem extract_re_matches_appends_all (line : List Byte)
    (gs : List (Nat × Nat)) :
    extract_re_matches line (some gs) =
      (gs.map (fun m => sliceL line m.1 m.2)).flatten ∧
    extract_re_matches line none = line := by
  refine ⟨?_, rfl⟩
  have haux : ∀ (l : List (Nat × Nat)) (acc : List Byte),
      l.foldl (fun ret m => ret ++ sliceL line m.1 m.2) acc =
        acc ++ (l.map (fun m => sliceL line m.1 m.2)).flatten := by
    intro l
    induction l with
    | nil => intro acc; simp
    | cons m ms ih => intro acc; simp [ih]
  simpa using haux gs []

/-- C4 (code bug): when BOTH files' final lines lack a trailing newline
and those lines form the hunk's terminal remove/add pair, the renderer
emits no marker at all — the Removed arm requires the new side to end in a
newline and the Added arm requires the old side to, so (false, false)
emits nothing.  The claim (and GNU diff, which the code's tests compare
against byte for byte) requires the marker after both terminal records.
The equation holds for every byte differ and changed-common renderer as
those are not consulted on this hunk. -/
theorem no_newline_marker_missing
    (diffFn : List Byte → List Byte → List (DiffResult Byte))
    (changedRender : Nat → Nat → List Byte) :
    display_diff_hunked confC4 diffC4 = .ok [hunkC4] ∧
    prescanGo oldC4 newC4 hunkC4.items.reverse none none =
      .ok (some false, some false) ∧
    do_write diffFn changedRender confC4 hunkC4 oldC4 newC4 =
      .ok (strBytes "@@ -2 +2 @@\n-b+c") ∧
    occursIn noNewlineMarker (strBytes "@@ -2 +2 @@\n-b+c") = false := by
  exact ⟨rfl, rfl, rfl, by decide⟩

/-- Counterexample to C6 as stated: on two Alpha runs separated by the
commons space and letter a, the letter IS absorbed into the second
summarized group (absorbed count 1) and the previous class equals the
current one, so the claim's condition demands suppression; the code still
prints the symbol because the space remained unabsorbed.  The code and the
claim-side renderer disagree on this input. -/
theorem narrow_suppression_counterexample :
    intra_line_narrow itemsC6 = strBytes "\\a+ \\a+\n" ∧
    intra_line_narrow_claim itemsC6 = strBytes "\\a+ \n" ∧
    intra_line_narrow itemsC6 ≠ intra_line_narrow_claim itemsC6 ∧
    runCC (.Removed ⟨some 3, some 3, 99⟩)
      [.Added ⟨some 4, some 3, 121⟩, .Common ⟨some 4, some 4, 10⟩] = .Alpha ∧
    nUnsummarizable .Alpha [32, 97] = 1 ∧
    printCCFlag (some .Alpha) .Alpha 1 = true ∧
    printCCFlagClaim (some .Alpha) .Alpha (2 - 1) = false := by
  refine ⟨rfl, rfl, by decide, rfl, rfl, rfl, rfl⟩

/-- C6 (amended): on reaching a change run, the Narrow renderer emits the
unabsorbed left prefix of the buffered commons and then the class symbol
followed by a plus, except that the symbol is suppressed exactly when the
previously emitted class equals the run's merged class AND no buffered
common byte remained unabsorbed (all of the buffer, possibly empty, was
absorbed); equivalently, printCCFlag is false iff the previous class
equals the current one and the unabsorbed count is zero. -/
theorem narrow_symbol_emission (fuel : Nat) (prev : Option CharacterClass)
    (acc0 : List Byte) (first : DiffResult Byte)
    (rest2 : List (DiffResult Byte)) (hfirst : is_common first = false) :
    (narrowGo (fuel + 1) prev acc0 (first :: rest2) =
      acc0.take (nUnsummarizable (runCC first rest2) acc0) ++
      (if prev = some (runCC first rest2) ∧
          nUnsummarizable (runCC first rest2) acc0 = 0 then
        ([] : List Byte)
      else ccBytes (runCC first rest2) ++ [43]) ++
      narrowGo fuel (some (runCC first rest2)) []
        ((rest2.dropWhile (fun d => !is_common d)).dropWhile
          (skipCommonPred (runCC first rest2)))) ∧
    (∀ (p : Option CharacterClass) (c : CharacterClass) (n : Nat),
      printCCFlag p c n = false ↔ p = some c ∧ n = 0) := by
  have hiff : ∀ (p : Option CharacterClass) (c : CharacterClass) (n : Nat),
      printCCFlag p c n = false ↔ p = some c ∧ n = 0 := by
    intro p c n
    cases p with
    | none => simp [printCCFlag]
    | some p =>
      by_cases hp : p = c
      · subst hp
        simp [printCCFlag]
      · simp [printCCFlag, hp]
  refine ⟨?_, hiff⟩
  rw [narrowGo]
  simp only [List.takeWhile_cons, List.dropWhile_cons, hfirst, Bool.false_eq_true,
    if_false, List.map_nil, List.append_nil]
  rcases hpf : printCCFlag prev (runCC first rest2)
      (nUnsummarizable (runCC first rest2) acc0) with _ | _
  · rw [if_pos ((hiff _ _ _).mp hpf)]
    simp
  · have hcond : ¬(prev = some (runCC first rest2) ∧
        nUnsummarizable (runCC first rest2) acc0 = 0) := by
      intro hc
      rw [(hiff _ _ _).mpr hc] at hpf
      cases hpf
    rw [if_neg hcond]
    simp

/-- Witness for C6 (amended): the emission equation at the first run of
the concrete sequence itemsC6. -/
theorem narrow_symbol_emission_witness :
    narrowGo 7 none [] (firstC6 :: restC6) =
      ([] : List Byte).take (nUnsummarizable (runCC firstC6 restC6) []) ++
      (if (none : Option CharacterClass) = some (runCC firstC6 restC6) ∧
          nUnsummarizable (runCC firstC6 restC6) [] = 0 then
        ([] : List Byte)
      else ccBytes (runCC firstC6 restC6) ++ [43]) ++
      narrowGo 6 (some (runCC firstC6 restC6)) []
        ((restC6.dropWhile (fun d => !is_common d)).dropWhile
          (skipCommonPred (runCC firstC6 restC6))) :=
  (narrow_symbol_emission 6 none [] firstC6 restC6 rfl).1

/-- C10: CharacterClass::merge is commutative and idempotent, and folding
the classes of a change run over merge is invariant under any permutation
of the run. -/
theorem merge_comm_idem_fold :
    (∀ x y : CharacterClass, x.merge y = y.merge x) ∧
    (∀ x : CharacterClass, x.merge x = x) ∧
    (∀ (c : CharacterClass) (l₁ l₂ : List CharacterClass), l₁.Perm l₂ →
      l₁.foldl CharacterClass.merge c = l₂.foldl CharacterClass.merge c) := by
  refine ⟨?_, ?_, ?_⟩
  · intro x y; cases x <;> cases y <;> rfl
  · intro x; cases x <;> rfl
  · intro c l₁ l₂ p
    exact p.foldl_eq' (fun x _ y _ z => by cases x <;> cases y <;> cases z <;> rfl) c

/-- Witness for C10: the permutation clause applied at a concrete run. -/
theorem merge_comm_idem_fold_witness :
    [CharacterClass.Alpha, CharacterClass.Digit].foldl CharacterClass.merge .White =
      [CharacterClass.Digit, CharacterClass.Alpha].foldl CharacterClass.merge .White :=
  merge_comm_idem_fold.2.2 .White _ _ (List.Perm.swap _ _ _)

/-- C3: the hunk header is `@@ -A[,B] +C[,D] @@` where each side prints the
one-based start when its length is positive and the zero-based start when
the length is zero; the length part is omitted exactly when the length is
1, and a zero length is printed explicitly as ",0". -/
theorem hunk_header_format {α : Type} (hunk : Hunk α) :
    write_hunk_header hunk =
      "@@ -" ++ write_off_len hunk.old_start hunk.old_len ++ " +" ++
        write_off_len hunk.new_start hunk.new_len ++ " @@\n" ∧
    (∀ off len : Nat,
      (len = 0 → write_off_len off len = toString off ++ ",0") ∧
      (len = 1 → write_off_len off len = toString (off + 1)) ∧
      (1 < len →
        write_off_len off len = toString (off + 1) ++ "," ++ toString len)) := by
  refine ⟨rfl, ?_⟩
  intro off len
  refine ⟨fun h => by simp [write_off_len, h], fun h => by simp [write_off_len, h], ?_⟩
  intro h
  have h0 : len ≠ 0 := by omega
  simp [write_off_len, h0, h, String.append_assoc]

/-- Witness for C3 at a concrete hunk: a header with a zero-length old side,
a length-one new side, and one with lengths above one. -/
theorem hunk_header_format_witness :
    write_hunk_header (⟨4, 0, 7, 1, []⟩ : Hunk Nat) = "@@ -4,0 +8 @@\n" ∧
    write_hunk_header (⟨1, 3, 1, 2, []⟩ : Hunk Nat) = "@@ -2,3 +2,2 @@\n" := by
  have h1 := (hunk_header_format (⟨4, 0, 7, 1, []⟩ : Hunk Nat)).1
  have h2 := (hunk_header_format (⟨1, 3, 1, 2, []⟩ : Hunk Nat)).1
  have p := (hunk_header_format (⟨4, 0, 7, 1, []⟩ : Hunk Nat)).2
  refine ⟨?_, ?_⟩
  · rw [h1, (p 4 0).1 rfl, (p 7 1).2.1 rfl]; rfl
  · rw [h2, ((hunk_header_format (⟨1, 3, 1, 2, []⟩ : Hunk Nat)).2 1 3).2.2 (by omega),
      ((hunk_header_format (⟨1, 3, 1, 2, []⟩ : Hunk Nat)).2 1 2).2.2 (by omega)]; rfl

end Subdiff
